import Mathlib

/-!
Shallow embedding of the HTML-to-text conversion engine of `artix_news.py`
(class `ArtixNewsParser`).  Strings manipulated by the converter are modelled
as `List Char`; Python attribute values (which are `None`, a string, or the
boolean marker `True`) are modelled by `PyVal`.  The tokenizer is an external
dependency of the engine (spec §2): concrete documents below are given
directly as the event streams the tokenizer produces for them.
-/

/-- Python attribute values as they occur in the parser: `None`, a string,
or the boolean `True` used as the one-shot news marker. -/
inductive PyVal where
  | vNone : PyVal
  | vStr (s : String) : PyVal
  | vTrue : PyVal
deriving DecidableEq

/-- An element's attribute list: ordered (name, value) pairs. -/
abbrev Attrs := List (String × PyVal)

/-- `_get_attr(attrs, key)`: value of the first pair whose key matches,
`None` (here `PyVal.vNone`) if the key is absent. -/
def getAttr (attrs : Attrs) (key : String) : PyVal :=
  match attrs with
  | [] => .vNone
  | (k, v) :: rest => if k = key then v else getAttr rest key

/-- Python `str.isspace()` for the characters the engine can meet
(ASCII whitespace set used by `lstrip`, `rstrip`, `\s`). -/
def isPySpace (c : Char) : Bool :=
  c = ' ' || c = '\t' || c = '\n' || c = '\r' || c = '\x0b' || c = '\x0c'

/-- Python `text.lstrip()`. -/
def lstripWs (l : List Char) : List Char := l.dropWhile isPySpace

/-- Python `text.rstrip()`. -/
def rstripWs (l : List Char) : List Char :=
  (l.reverse.dropWhile isPySpace).reverse

/-- Python `text.rstrip(' \t')`. -/
def rstripSpTab (l : List Char) : List Char :=
  (l.reverse.dropWhile (fun c => c = ' ' || c = '\t')).reverse

/-- Python `text.lstrip('\n')`. -/
def lstripNl (l : List Char) : List Char := l.dropWhile (fun c => c = '\n')

/-- Helper of `squeezeWs`: the flag says whether the previous character was
whitespace (so a whitespace run has already emitted its single space). -/
def squeezeGo : Bool → List Char → List Char
  | _, [] => []
  | prevWs, c :: cs =>
    if isPySpace c then
      if prevWs then squeezeGo true cs else ' ' :: squeezeGo true cs
    else c :: squeezeGo false cs

/-- `_squeeze_whitespace`: `re.sub(r'\s+', ' ', text)` — every maximal
whitespace run becomes one single space. -/
def squeezeWs (l : List Char) : List Char := squeezeGo false l

/-- Python `data.split('\n')` (always at least one piece). -/
def splitNl : List Char → List (List Char)
  | [] => [[]]
  | c :: cs =>
    if c = '\n' then [] :: splitNl cs
    else
      match splitNl cs with
      | [] => [[c]]
      | h :: t => (c :: h) :: t

/-- `'\n'.join('\t' + line for line in data.split('\n'))`. -/
def tabIndent (d : List Char) : List Char :=
  List.intercalate ['\n'] ((splitNl d).map (fun line => '\t' :: line))

/-- The state of one `ArtixNewsParser` instance: output buffer `out`,
element context stack (top at the head), `_inside_pre`, `_ignore`. -/
structure ParserState where
  out : List Char
  stack : List (String × Attrs)
  insidePre : Bool
  ignore : Bool
deriving DecidableEq

/-- `__init__`: empty buffer, empty stack, both flags off. -/
def initState : ParserState := ⟨[], [], false, false⟩

/-- `_append(text)`: whitespace-aware concatenation onto the output buffer. -/
def appendOut (out text : List Char) : List Char :=
  match text with
  | [] => out
  | t0 :: _ =>
    match out.getLast? with
    | none => out ++ ' ' :: text
    | some lc =>
      if isPySpace lc then
        if t0 = ' ' ∨ t0 = '\t' then rstripSpTab out ++ text
        else if lc = '\n' ∧ t0 = '\n' then
          rstripWs out ++ '\n' :: '\n' :: lstripNl text
        else out ++ text
      else out ++ ' ' :: text

/-- Is the class value a suppression trigger (`right` or `sidebar`)? -/
def suppressCls (v : PyVal) : Prop := v = .vStr "right" ∨ v = .vStr "sidebar"

instance (v : PyVal) : Decidable (suppressCls v) := by
  unfold suppressCls; infer_instance

/-- `handle_starttag(tag, attrs)`. -/
def handleStarttag (s : ParserState) (tag : String) (attrs : Attrs) :
    ParserState :=
  let s := { s with stack := (tag, attrs) :: s.stack }
  if s.ignore then s
  else
    let cls := getAttr attrs "class"
    if tag = "a" then { s with out := appendOut s.out [' '] }
    else if tag = "br" then { s with out := appendOut s.out ['\n'] }
    else if tag = "code" then { s with out := appendOut s.out ['\n', '\n'] }
    else if tag = "pre" then { s with insidePre := true }
    else if tag = "div" ∧ suppressCls cls then { s with ignore := true }
    else if tag = "li" then
      { s with out := appendOut s.out [' ', '•', ' '] }
    else s

/-- Attribute list of the top entry of a context stack (empty list when the
stack is empty, matching `attrs = []` in the source). -/
def stackAttrs : List (String × Attrs) → Attrs
  | [] => []
  | (_, a) :: _ => a

/-- Attribute list of the entry about to be popped. -/
def topAttrs (s : ParserState) : Attrs := stackAttrs s.stack

/-- `handle_endtag(tag)`. -/
def handleEndtag (s : ParserState) (tag : String) : ParserState :=
  let attrs := topAttrs s
  let s := { s with stack := s.stack.tail }
  let cls := getAttr attrs "class"
  let s := if tag = "div" ∧ suppressCls cls then { s with ignore := false }
           else s
  if s.ignore then s
  else if tag = "p" ∨ tag = "div" then
    { s with out := appendOut s.out ['\n', '\n'] }
  else if tag = "a" then { s with out := appendOut s.out [' '] }
  else if tag = "li" ∨ tag = "ul" ∨ tag = "ol" ∨ tag = "code" then
    { s with out := appendOut s.out ['\n'] }
  else if tag = "pre" then
    { s with insidePre := false, out := appendOut s.out ['\n'] }
  else s

/-- `attrs_parent.append(('t', True))`: the in-place mutation of the parent
stack entry's attribute list performed by the news branch. -/
def setMarker : List (String × Attrs) → List (String × Attrs)
  | top :: (ptag, pattrs) :: rest =>
    top :: (ptag, pattrs ++ [("t", PyVal.vTrue)]) :: rest
  | st => st

/-- `handle_data(data)`. -/
def handleData (s : ParserState) (data0 : List Char) : ParserState :=
  let tag := match s.stack with | [] => "" | (t, _) :: _ => t
  let tagParent := match s.stack with | _ :: (t, _) :: _ => t | _ => ""
  let attrsParent : Attrs := match s.stack with
    | _ :: (_, a) :: _ => a
    | _ => []
  let data := lstripWs data0
  if s.ignore = true ∨ tag = "h0" then s
  else if tag = "p" ∧ tagParent = "div" ∧ getAttr attrsParent "t" = .vNone ∧
          getAttr attrsParent "class" = .vStr "news" then
    { s with out := appendOut s.out (("\n[News] ".data) ++ data),
             stack := setMarker s.stack }
  else if tag = "a" ∧ tagParent = "div" ∧
          getAttr attrsParent "class" = .vStr "timestamp" then
    { s with out := appendOut s.out (("[Date] ".data) ++ data) }
  else if s.insidePre = true ∨ tag = "code" then
    { s with out := s.out ++ tabIndent data }
  else if tag = "pre" then { s with out := appendOut s.out ['\n'] }
  else if tag = "script" then s
  else
    let sq := squeezeWs data
    if sq ≠ [' '] ∨ (s.out ≠ [] ∧ s.out.getLast? ≠ some '\n') then
      { s with out := appendOut s.out sq }
    else s

/-- One tokenizer event: start tag (with attributes), end tag, or text. -/
inductive Event where
  | start (tag : String) (attrs : Attrs) : Event
  | close (tag : String) : Event
  | text (data : List Char) : Event

/-- Dispatch one event to the matching handler. -/
def step (s : ParserState) (e : Event) : ParserState :=
  match e with
  | .start tag attrs => handleStarttag s tag attrs
  | .close tag => handleEndtag s tag
  | .text d => handleData s d

/-- Feed a list of events starting from a given state. -/
def runFrom (s : ParserState) (es : List Event) : ParserState :=
  es.foldl step s

/-- `unhtml`: feed a whole document (as its event stream) to a fresh
parser instance. -/
def run (es : List Event) : ParserState := runFrom initState es

/-- `GREEN` escape sequence `'\033[32m'`. -/
def greenEsc : List Char := ['\x1b', '[', '3', '2', 'm']

/-- `RESET` escape sequence `'\033[0m'`. -/
def resetEsc : List Char := ['\x1b', '[', '0', 'm']

/-- Match of the `fix_dates` pattern `\s+(\[Date\]\s?)(.*)` at the current
position: a nonempty whitespace run, then the literal `[Date]`, then at most
one whitespace character, then the rest of the line as group 2.  Returns
group 2 and the remainder of the string after the match. -/
def matchDateHere (s : List Char) : Option (List Char × List Char) :=
  let ws := s.takeWhile isPySpace
  if ws = [] then none
  else
    let rest := s.dropWhile isPySpace
    if "[Date]".data.isPrefixOf rest then
      let r2 := rest.drop 6
      let r3 := match r2 with
        | c :: cs => if isPySpace c then cs else r2
        | [] => r2
      some (r3.takeWhile (fun c => c ≠ '\n'), r3.dropWhile (fun c => c ≠ '\n'))
    else none

/-- Scanning loop of `re.sub` for `fix_dates` (fuel-indexed; the fuel is
the length of the string, enough because every match consumes at least one
character). -/
def fixDatesAux : Nat → List Char → List Char
  | 0, s => s
  | _ + 1, [] => []
  | n + 1, c :: cs =>
    match matchDateHere (c :: cs) with
    | some (g2, rem) =>
      (' ' :: '[' :: greenEsc) ++ g2 ++ resetEsc ++ (']' :: fixDatesAux n rem)
    | none => c :: fixDatesAux n cs

/-- `fix_dates`: `re.sub(r'\s+(\[Date\]\s?)(.*)', " [GREEN\2RESET]", out)`. -/
def fixDates (out : List Char) : List Char := fixDatesAux out.length out

/-! ## Substring machinery over `List Char` -/

/-- Does `l` start with the block `p`? -/
def startsSeq : List Char → List Char → Bool
  | [], _ => true
  | _ :: _, [] => false
  | p :: ps, c :: cs => p = c && startsSeq ps cs

/-- Does `l` contain the contiguous block `p`? -/
def containsSeq (p : List Char) : List Char → Bool
  | [] => startsSeq p []
  | c :: cs => startsSeq p (c :: cs) || containsSeq p cs

theorem startsSeq_iff (p l : List Char) :
    startsSeq p l = true ↔ ∃ r, l = p ++ r := by
  induction p generalizing l with
  | nil => simp [startsSeq]
  | cons x ps ih =>
    cases l with
    | nil =>
      simp only [startsSeq]
      constructor
      · intro h; cases h
      · rintro ⟨r, hr⟩; cases hr
    | cons c cs =>
      simp only [startsSeq, Bool.and_eq_true, decide_eq_true_eq, ih]
      constructor
      · rintro ⟨rfl, r, rfl⟩; exact ⟨r, rfl⟩
      · rintro ⟨r, hr⟩
        injection hr with h1 h2
        exact ⟨h1.symm, r, h2⟩

theorem containsSeq_split (p l : List Char) :
    containsSeq p l = true ↔ ∃ a b, l = a ++ p ++ b := by
  induction l with
  | nil =>
    simp only [containsSeq, startsSeq_iff]
    constructor
    · rintro ⟨r, hr⟩
      exact ⟨[], r, by simpa using hr⟩
    · rintro ⟨a, b, hab⟩
      rcases List.append_eq_nil.mp hab.symm with ⟨h1, _⟩
      rcases List.append_eq_nil.mp h1 with ⟨_, hp⟩
      exact ⟨[], by simp [hp]⟩
  | cons c cs ih =>
    simp only [containsSeq, Bool.or_eq_true, startsSeq_iff, ih]
    constructor
    · rintro (⟨r, hr⟩ | ⟨a, b, hab⟩)
      · exact ⟨[], r, by simpa using hr⟩
      · exact ⟨c :: a, b, by simp [hab]⟩
    · rintro ⟨a, b, hab⟩
      cases a with
      | nil => exact Or.inl ⟨b, by simpa using hab⟩
      | cons x xs =>
        injection hab with h1 h2
        exact Or.inr ⟨xs, b, h2⟩

theorem containsSeq_appendLeft {p a : List Char} (b : List Char)
    (h : containsSeq p a = true) : containsSeq p (a ++ b) = true := by
  rcases (containsSeq_split p a).mp h with ⟨u, v, rfl⟩
  exact (containsSeq_split p _).mpr ⟨u, v ++ b, by simp⟩

theorem containsSeq_appendRight (a : List Char) {p b : List Char}
    (h : containsSeq p b = true) : containsSeq p (a ++ b) = true := by
  rcases (containsSeq_split p b).mp h with ⟨u, v, rfl⟩
  exact (containsSeq_split p _).mpr ⟨a ++ u, v, by simp⟩

theorem containsSeq_nil_imp {p : List Char} (h : containsSeq p [] = true) :
    p = [] := by
  rcases (containsSeq_split p []).mp h with ⟨a, b, hab⟩
  rcases List.append_eq_nil.mp hab.symm with ⟨h1, _⟩
  rcases List.append_eq_nil.mp h1 with ⟨_, h2⟩
  exact h2

theorem containsSeq_reverse {p l : List Char} (h : containsSeq p l = true) :
    containsSeq p.reverse l.reverse = true := by
  rcases (containsSeq_split p l).mp h with ⟨a, b, rfl⟩
  exact (containsSeq_split _ _).mpr ⟨b.reverse, a.reverse, by simp⟩

theorem dropWhile_head_false {q : Char → Bool} {l r : List Char} {c : Char}
    (h : l.dropWhile q = c :: r) : q c = false := by
  induction l with
  | nil => simp [List.dropWhile] at h
  | cons x xs ih =>
    by_cases hx : q x
    · rw [List.dropWhile_cons_of_pos hx] at h; exact ih h
    · rw [List.dropWhile_cons_of_neg hx] at h
      injection h with h1 _
      subst h1
      exact Bool.eq_false_iff.mpr hx

theorem containsSeq_dropWhile {q : Char → Bool} {c : Char} {ps m : List Char}
    (hc : q c = false) (h : containsSeq (c :: ps) m = true) :
    containsSeq (c :: ps) (m.dropWhile q) = true := by
  induction m with
  | nil => exact absurd (containsSeq_nil_imp h) (by simp)
  | cons x xs ih =>
    by_cases hx : q x
    · rw [List.dropWhile_cons_of_pos hx]
      apply ih
      have hns : startsSeq (c :: ps) (x :: xs) = false := by
        simp only [startsSeq, Bool.and_eq_false_iff, decide_eq_false_iff_not]
        left
        intro hcx
        subst hcx
        rw [hx] at hc
        cases hc
      simpa [containsSeq, hns] using h
    · rwa [List.dropWhile_cons_of_neg hx]

/-- Dropping a `q`-satisfying suffix cannot destroy an occurrence of a block
whose last character fails `q`. -/
theorem containsSeq_stripEnd {q : Char → Bool} {p l : List Char}
    (hp : p ≠ [])
    (hlast : ∀ c, p.getLast? = some c → q c = false)
    (h : containsSeq p l = true) :
    containsSeq p ((l.reverse.dropWhile q).reverse) = true := by
  have hrev : containsSeq p.reverse l.reverse = true := containsSeq_reverse h
  obtain ⟨c, cs, hcs⟩ : ∃ c cs, p.reverse = c :: cs := by
    cases hpr : p.reverse with
    | nil => exact absurd (by simpa using congrArg List.reverse hpr) hp
    | cons c cs => exact ⟨c, cs, rfl⟩
  have hc : q c = false := by
    apply hlast
    rw [← List.head?_reverse, hcs]
    rfl
  rw [hcs] at hrev
  have hdrop := containsSeq_dropWhile hc hrev
  have := containsSeq_reverse (p := c :: cs) (l := l.reverse.dropWhile q) hdrop
  rwa [← hcs, List.reverse_reverse] at this

/-! ## Counting characters through the appending operations -/

theorem count_dropWhile_eq {q : Char → Bool} {x : Char}
    (hq : ∀ c, q c = true → c ≠ x) (l : List Char) :
    (l.dropWhile q).count x = l.count x := by
  conv_rhs => rw [← List.takeWhile_append_dropWhile q l]
  rw [List.count_append]
  have hz : (l.takeWhile q).count x = 0 := by
    rw [List.count_eq_zero]
    intro hm
    exact hq x (List.mem_takeWhile_imp hm) rfl
  omega

theorem count_rstripWs {x : Char} (hx : isPySpace x = false) (l : List Char) :
    (rstripWs l).count x = l.count x := by
  unfold rstripWs
  rw [List.count_reverse, count_dropWhile_eq, List.count_reverse]
  intro c hc hcx
  subst hcx
  rw [hx] at hc
  cases hc

theorem count_rstripSpTab {x : Char} (hx : isPySpace x = false)
    (l : List Char) : (rstripSpTab l).count x = l.count x := by
  unfold rstripSpTab
  rw [List.count_reverse, count_dropWhile_eq, List.count_reverse]
  intro c hc hcx
  subst hcx
  simp only [Bool.or_eq_true, decide_eq_true_eq] at hc
  rcases hc with h | h <;> simp [isPySpace, h] at hx

theorem count_lstripNl {x : Char} (hx : x ≠ '\n') (t : List Char) :
    (lstripNl t).count x = t.count x := by
  unfold lstripNl
  rw [count_dropWhile_eq]
  intro c hc hcx
  subst hcx
  simp only [decide_eq_true_eq] at hc
  exact hx hc

theorem notSpace_ne {x : Char} (hx : isPySpace x = false) :
    x ≠ ' ' ∧ x ≠ '\t' ∧ x ≠ '\n' := by
  refine ⟨?_, ?_, ?_⟩ <;> intro h <;> subst h <;> simp [isPySpace] at hx

theorem count_appendOut {x : Char} (hx : isPySpace x = false)
    (out txt : List Char) :
    (appendOut out txt).count x = out.count x + txt.count x := by
  obtain ⟨hsp, htab, hnl⟩ := notSpace_ne hx
  unfold appendOut
  cases txt with
  | nil => simp
  | cons t0 ts =>
    cases hl : out.getLast? with
    | none =>
      simp [List.count_append, List.count_cons, Ne.symm hsp]
    | some lc =>
      by_cases h1 : isPySpace lc
      · simp only [h1, if_true]
        by_cases h2 : t0 = ' ' ∨ t0 = '\t'
        · simp [h2, List.count_append, count_rstripSpTab hx]
        · simp only [h2, if_false]
          by_cases h3 : lc = '\n' ∧ t0 = '\n'
          · simp [h3, List.count_append, count_rstripWs hx,
              count_lstripNl hnl, List.count_cons, Ne.symm hnl]
          · simp [h3, List.count_append]
      · simp [h1, List.count_append, List.count_cons, Ne.symm hsp]

/-! ## Occurrences of a block through the appending operations -/

theorem rstripWs_append_tail (l : List Char) :
    l = rstripWs l ++ (l.reverse.takeWhile isPySpace).reverse := by
  unfold rstripWs
  conv_lhs => rw [← List.reverse_reverse l,
    ← List.takeWhile_append_dropWhile isPySpace l.reverse]
  rw [List.reverse_append]

theorem getLast?_rstripWs {l : List Char} {c : Char}
    (h : (rstripWs l).getLast? = some c) : isPySpace c = false := by
  unfold rstripWs at h
  rw [List.getLast?_reverse] at h
  cases hm : l.reverse.dropWhile isPySpace with
  | nil => rw [hm] at h; cases h
  | cons d ds =>
    rw [hm] at h
    injection h with h
    subst h
    exact dropWhile_head_false hm

theorem containsSeq_appendOut {p : List Char} (hp : p ≠ [])
    (hlast : ∀ c, p.getLast? = some c → isPySpace c = false)
    {out : List Char} (txt : List Char) (h : containsSeq p out = true) :
    containsSeq p (appendOut out txt) = true := by
  unfold appendOut
  cases txt with
  | nil => exact h
  | cons t0 ts =>
    cases out.getLast? with
    | none => exact containsSeq_appendLeft _ h
    | some lc =>
      by_cases h1 : isPySpace lc
      · simp only [h1, if_true]
        by_cases h2 : t0 = ' ' ∨ t0 = '\t'
        · simp only [h2, if_true]
          apply containsSeq_appendLeft
          apply containsSeq_stripEnd hp _ h
          intro c hc
          obtain ⟨hsp, htab, _⟩ := notSpace_ne (hlast c hc)
          simp [hsp, htab]
        · simp only [h2, if_false]
          by_cases h3 : lc = '\n' ∧ t0 = '\n'
          · simp only [h3, if_true]
            exact containsSeq_appendLeft _ (containsSeq_stripEnd hp hlast h)
          · simp only [h3, if_false]
            exact containsSeq_appendLeft _ h
      · simp only [h1, if_false]
        exact containsSeq_appendLeft _ h

theorem startsSeq_append_split {p a b : List Char}
    (h : startsSeq p (a ++ b) = true) :
    (∃ w, a = p ++ w) ∨ (∃ w, p = a ++ w ∧ startsSeq w b = true) := by
  rcases (startsSeq_iff p (a ++ b)).mp h with ⟨r, hr⟩
  rcases List.append_eq_append_iff.mp hr with ⟨w, hw1, hw2⟩ | ⟨w, hw1, hw2⟩
  · exact Or.inr ⟨w, hw1, (startsSeq_iff w b).mpr ⟨r, hw2⟩⟩
  · exact Or.inl ⟨w, hw1⟩

/-- An occurrence of `p` in `a ++ b` lies in `a`, lies in `b`, or spans the
boundary: `p = p₁ ++ p₂` with a nonempty `p₁` ending `a` and a nonempty `p₂`
starting `b`. -/
theorem containsSeq_append_cases {p : List Char} :
    ∀ a b : List Char, containsSeq p (a ++ b) = true →
      containsSeq p a = true ∨ containsSeq p b = true ∨
      ∃ p₁ p₂, p = p₁ ++ p₂ ∧ p₁ ≠ [] ∧ p₂ ≠ [] ∧
        (∃ u, a = u ++ p₁) ∧ startsSeq p₂ b = true := by
  intro a
  induction a with
  | nil => intro b h; exact Or.inr (Or.inl (by simpa using h))
  | cons c a' ih =>
    intro b h
    rw [List.cons_append] at h
    simp only [containsSeq, Bool.or_eq_true] at h
    rcases h with hs | hrec
    · rcases startsSeq_append_split (a := c :: a') hs with ⟨w, hw⟩ | ⟨w, hw1, hw2⟩
      · left
        exact (containsSeq_split p (c :: a')).mpr ⟨[], w, by simpa using hw⟩
      · cases w with
        | nil =>
          left
          rw [List.append_nil] at hw1
          exact (containsSeq_split p (c :: a')).mpr
            ⟨[], [], by simp [hw1]⟩
        | cons w0 ws =>
          right; right
          exact ⟨c :: a', w0 :: ws, hw1, by simp, by simp,
            ⟨[], by simp⟩, hw2⟩
    · rcases ih b hrec with h1 | h2 | ⟨p₁, p₂, hp, hp1, hp2, ⟨u, hu⟩, hb⟩
      · left
        exact containsSeq_appendRight [c] (by simpa using h1)
      · exact Or.inr (Or.inl h2)
      · right; right
        exact ⟨p₁, p₂, hp, hp1, hp2, ⟨c :: u, by simp [hu]⟩, hb⟩

/-! ## The blank-line cap: no three consecutive newline characters -/

/-- Three consecutive newline characters (more than one blank line). -/
def nlTriple : List Char := ['\n', '\n', '\n']

theorem mem_nlTriple {c : Char} (h : c ∈ nlTriple) : c = '\n' := by
  simp only [nlTriple, List.mem_cons, List.not_mem_nil, or_false] at h
  rcases h with h | h | h <;> exact h

theorem getLast?_append_of_ne_nil {a p : List Char} (hp : p ≠ []) :
    (a ++ p).getLast? = p.getLast? := by
  rw [List.getLast?_append]
  cases hl : p.getLast? with
  | none => exact absurd (List.getLast?_eq_none_iff.mp hl) hp
  | some c => rfl

/-- Appending two newline characters through `_append` cannot create a run
of three newlines if the buffer had none. -/
theorem appendOut_nlnl_noTriple {out : List Char}
    (h : containsSeq nlTriple out = false) :
    containsSeq nlTriple (appendOut out ['\n', '\n']) = false := by
  have hspan : ∀ a : List Char, a.getLast? ≠ some '\n' →
      containsSeq nlTriple a = false →
      containsSeq nlTriple (a ++ ['\n', '\n']) = false := by
    intro a hlast ha
    by_contra hcon
    rw [Bool.not_eq_false] at hcon
    rcases containsSeq_append_cases a ['\n', '\n'] hcon with
      h1 | h2 | ⟨p₁, p₂, hp, hp1, _, ⟨u, hu⟩, _⟩
    · rw [h1] at ha; cases ha
    · have : containsSeq nlTriple ['\n', '\n'] = false := by decide
      rw [h2] at this; cases this
    · have hlnl : p₁.getLast? = some '\n' := by
        obtain ⟨c, hc⟩ : ∃ c, p₁.getLast? = some c := by
          cases hg : p₁.getLast? with
          | none => exact absurd (List.getLast?_eq_none_iff.mp hg) hp1
          | some c => exact ⟨c, rfl⟩
        have hcm : c ∈ p₁ := by
          have := List.getLast?_eq_getLast p₁ hp1
          rw [this] at hc
          injection hc with hc
          rw [← hc]
          exact List.getLast_mem hp1
        have : c ∈ nlTriple := by rw [hp]; exact List.mem_append_left _ hcm
        rw [mem_nlTriple this] at hc
        exact hc
      apply hlast
      rw [hu, getLast?_append_of_ne_nil hp1]
      exact hlnl
  unfold appendOut
  cases hl : out.getLast? with
  | none =>
    have : out = [] := List.getLast?_eq_none_iff.mp hl
    subst this
    decide
  | some lc =>
    by_cases h1 : isPySpace lc
    · have hsp : ¬('\n' = ' ' ∨ '\n' = '\t') := by decide
      simp only [h1, if_true, hsp, if_false]
      simp only [and_true]
      by_cases h3 : lc = '\n'
      · rw [if_pos h3]
        have hred : lstripNl ['\n', '\n'] = ([] : List Char) := by decide
        rw [hred]
        have hfix : rstripWs out ++ '\n' :: '\n' :: ([] : List Char) =
            rstripWs out ++ ['\n', '\n'] := by simp
        rw [hfix]
        apply hspan
        · intro hcon
          have := getLast?_rstripWs hcon
          simp [isPySpace] at this
        · by_contra hcon
          rw [Bool.not_eq_false] at hcon
          have := containsSeq_appendLeft
            ((out.reverse.takeWhile isPySpace).reverse) hcon
          rw [← rstripWs_append_tail] at this
          rw [this] at h; cases h
      · rw [if_neg h3]
        apply hspan
        · rw [hl]
          intro hcon
          injection hcon with hcon
          exact h3 hcon
        · exact h
    · simp only [h1, if_false]
      by_contra hcon
      rw [Bool.not_eq_false] at hcon
      rcases containsSeq_append_cases out [' ', '\n', '\n'] hcon with
        hc1 | hc2 | ⟨p₁, p₂, hp, hp1, hp2, ⟨u, hu⟩, hb⟩
      · rw [hc1] at h; cases h
      · have : containsSeq nlTriple [' ', '\n', '\n'] = false := by decide
        rw [hc2] at this; cases this
      · obtain ⟨c, cs, hcc⟩ : ∃ c cs, p₂ = c :: cs := by
          cases p₂ with
          | nil => exact absurd rfl hp2
          | cons c cs => exact ⟨c, cs, rfl⟩
        have hcnl : c = '\n' := by
          apply mem_nlTriple
          rw [hp, hcc]
          exact List.mem_append_right _ (List.mem_cons_self c cs)
        rw [hcc, hcnl] at hb
        simp [startsSeq] at hb

/-! ## Structural facts about the handlers -/

/-- The popped-entry condition that switches suppression off in
`handle_endtag`: the closing tag NAME must be `div`, and the CLASS comes
from the popped stack entry. -/
def resetPop (st : List (String × Attrs)) (tag : String) : Prop :=
  tag = "div" ∧ suppressCls (getAttr (stackAttrs st) "class")

instance (st : List (String × Attrs)) (tag : String) :
    Decidable (resetPop st tag) := by
  unfold resetPop; infer_instance

theorem handleEndtag_ignore (s : ParserState) (tag : String) :
    (handleEndtag s tag).ignore =
      if resetPop s.stack tag then false else s.ignore := by
  by_cases hr : resetPop s.stack tag
  · obtain ⟨h1, h2⟩ := hr
    subst h1
    rw [if_pos ⟨rfl, h2⟩]
    simp [handleEndtag, topAttrs, h2]
  · rw [if_neg hr]
    have hr' : ¬(tag = "div" ∧
        suppressCls (getAttr (stackAttrs s.stack) "class")) := hr
    by_cases hi : s.ignore = true
    · simp [handleEndtag, topAttrs, hr', hi]
    · simp [handleEndtag, topAttrs, hr', hi,
        apply_ite ParserState.ignore, ite_self]

theorem handleEndtag_stack (s : ParserState) (tag : String) :
    (handleEndtag s tag).stack = s.stack.tail := by
  simp [handleEndtag, topAttrs, apply_ite ParserState.stack, ite_self]

theorem handleEndtag_out_pdiv (s : ParserState) (tag : String)
    (ht : tag = "p" ∨ tag = "div") :
    (handleEndtag s tag).out = s.out ∨
    (handleEndtag s tag).out = appendOut s.out ['\n', '\n'] := by
  rcases ht with h | h <;> subst h
  · by_cases hi : s.ignore = true
    · left; simp [handleEndtag, topAttrs, hi]
    · right; simp [handleEndtag, topAttrs, hi]
  · by_cases h2 : suppressCls (getAttr (stackAttrs s.stack) "class")
    · right; simp [handleEndtag, topAttrs, h2]
    · by_cases hi : s.ignore = true
      · left; simp [handleEndtag, topAttrs, h2, hi]
      · right; simp [handleEndtag, topAttrs, h2, hi]

theorem runFrom_cons (s : ParserState) (e : Event) (es : List Event) :
    runFrom s (e :: es) = runFrom (step s e) es := rfl

theorem runFrom_append (s : ParserState) (es1 es2 : List Event) :
    runFrom s (es1 ++ es2) = runFrom (runFrom s es1) es2 :=
  List.foldl_append step s es1 es2

theorem handleEndtag_noTriple {s : ParserState} {tag : String}
    (ht : tag = "p" ∨ tag = "div")
    (h : containsSeq nlTriple s.out = false) :
    containsSeq nlTriple (handleEndtag s tag).out = false := by
  rcases handleEndtag_out_pdiv s tag ht with he | he <;> rw [he]
  · exact h
  · exact appendOut_nlnl_noTriple h

theorem runFrom_closes_noTriple :
    ∀ (tags : List String) (s : ParserState),
      (∀ t ∈ tags, t = "p" ∨ t = "div") →
      containsSeq nlTriple s.out = false →
      containsSeq nlTriple (runFrom s (tags.map Event.close)).out = false := by
  intro tags
  induction tags with
  | nil => intro s _ h; exact h
  | cons t ts ih =>
    intro s hall h
    rw [List.map_cons, runFrom_cons]
    exact ih _ (fun u hu => hall u (List.mem_cons_of_mem t hu))
      (handleEndtag_noTriple (hall t (List.mem_cons_self t ts)) h)

/-! ## Behaviour while suppression is active -/

theorem handleStarttag_ignored {s : ParserState} (tag : String)
    (attrs : Attrs) (hi : s.ignore = true) :
    handleStarttag s tag attrs =
      { s with stack := (tag, attrs) :: s.stack } := by
  simp [handleStarttag, hi]

theorem handleData_ignored {s : ParserState} (d : List Char)
    (hi : s.ignore = true) : handleData s d = s := by
  simp [handleData, hi]

theorem handleEndtag_ignored {s : ParserState} (tag : String)
    (hi : s.ignore = true) (hr : ¬resetPop s.stack tag) :
    handleEndtag s tag = { s with stack := s.stack.tail } := by
  have hr' : ¬(tag = "div" ∧
      suppressCls (getAttr (stackAttrs s.stack) "class")) := hr
  simp [handleEndtag, topAttrs, hr', hi]

/-- No event of the list, fed from the given stack, pops while satisfying
the reset condition. -/
def noResetPops (st : List (String × Attrs)) : List Event → Bool
  | [] => true
  | Event.start t a :: es => noResetPops ((t, a) :: st) es
  | Event.text _ :: es => noResetPops st es
  | Event.close t :: es =>
    !(decide (resetPop st t)) && noResetPops st.tail es

theorem runFrom_ignored :
    ∀ (es : List Event) (s : ParserState), s.ignore = true →
      noResetPops s.stack es = true →
      (runFrom s es).out = s.out ∧ (runFrom s es).ignore = true := by
  intro es
  induction es with
  | nil => intro s hi _; exact ⟨rfl, hi⟩
  | cons e es ih =>
    intro s hi hn
    cases e with
    | start t a =>
      rw [runFrom_cons]
      have hstep : step s (Event.start t a) =
          { s with stack := (t, a) :: s.stack } :=
        handleStarttag_ignored t a hi
      rw [hstep]
      exact ih _ hi (by simpa [noResetPops] using hn)
    | text d =>
      rw [runFrom_cons]
      have hstep : step s (Event.text d) = s := handleData_ignored d hi
      rw [hstep]
      exact ih _ hi (by simpa [noResetPops] using hn)
    | close t =>
      rw [runFrom_cons]
      simp only [noResetPops, Bool.and_eq_true, Bool.not_eq_true',
        decide_eq_false_iff_not] at hn
      have hstep : step s (Event.close t) =
          { s with stack := s.stack.tail } :=
        handleEndtag_ignored t hi hn.1
      rw [hstep]
      exact ih _ hi hn.2

/-! ## Attribute lookup lemmas -/

theorem getAttr_of_no_key {attrs : Attrs} {k : String}
    (h : ∀ kv ∈ attrs, Prod.fst kv ≠ k) : getAttr attrs k = .vNone := by
  induction attrs with
  | nil => rfl
  | cons kv rest ih =>
    obtain ⟨k', v⟩ := kv
    have hne : k' ≠ k := h (k', v) (List.mem_cons_self _ _)
    simp only [getAttr, if_neg hne]
    exact ih (fun kv hm => h kv (List.mem_cons_of_mem _ hm))

theorem getAttr_marker {attrs : Attrs}
    (h : ∀ kv ∈ attrs, Prod.fst kv ≠ "t") :
    getAttr (attrs ++ [("t", PyVal.vTrue)]) "t" = .vTrue := by
  induction attrs with
  | nil => rfl
  | cons kv rest ih =>
    obtain ⟨k', v⟩ := kv
    have hne : k' ≠ "t" := h (k', v) (List.mem_cons_self _ _)
    simp only [List.cons_append, getAttr, if_neg hne]
    exact ih (fun kv hm => h kv (List.mem_cons_of_mem _ hm))

theorem getAttr_append_of_ne {attrs : Attrs} {k : String}
    (h : getAttr attrs k ≠ .vNone) (l2 : Attrs) :
    getAttr (attrs ++ l2) k = getAttr attrs k := by
  induction attrs with
  | nil => exact absurd rfl h
  | cons kv rest ih =>
    obtain ⟨k', v⟩ := kv
    by_cases hk : k' = k
    · simp only [List.cons_append, getAttr, if_pos hk]
    · simp only [List.cons_append, getAttr, if_neg hk] at h ⊢
      exact ih h

/-! ## Documents made of a `div` with `p` children -/

/-- Tokenizer events of one `<p>text</p>` child. -/
def childEvents (t : List Char) : List Event :=
  [Event.start "p" [], Event.text t, Event.close "p"]

/-- Tokenizer events of a sequence of `<p>` children. -/
def childrenEvents : List (List Char) → List Event
  | [] => []
  | t :: ts => childEvents t ++ childrenEvents ts

/-- Tokenizer events of `<div ...attrs><p>t₁</p>...<p>tₙ</p></div>`. -/
def docNews (attrs : Attrs) (ts : List (List Char)) : List Event :=
  Event.start "div" attrs :: (childrenEvents ts ++ [Event.close "div"])

theorem mem_squeezeGo : ∀ (b : Bool) (l : List Char) (c : Char),
    c ∈ squeezeGo b l → c = ' ' ∨ c ∈ l := by
  intro b l
  induction l generalizing b with
  | nil => intro c h; simp [squeezeGo] at h
  | cons x xs ih =>
    intro c h
    simp only [squeezeGo] at h
    by_cases hx : isPySpace x
    · rw [if_pos hx] at h
      by_cases hb : b
      · rw [if_pos hb] at h
        rcases ih true c h with h1 | h2
        · exact Or.inl h1
        · exact Or.inr (List.mem_cons_of_mem _ h2)
      · rw [if_neg hb] at h
        rcases List.mem_cons.mp h with h1 | h1
        · exact Or.inl h1
        · rcases ih true c h1 with h2 | h3
          · exact Or.inl h2
          · exact Or.inr (List.mem_cons_of_mem _ h3)
    · rw [if_neg hx] at h
      rcases List.mem_cons.mp h with h1 | h1
      · exact Or.inr (h1 ▸ List.mem_cons_self _ _)
      · rcases ih false c h1 with h2 | h3
        · exact Or.inl h2
        · exact Or.inr (List.mem_cons_of_mem _ h3)

theorem count_squeeze_lstrip {t : List Char} (h : '[' ∉ t) :
    (squeezeWs (lstripWs t)).count '[' = 0 := by
  rw [List.count_eq_zero]
  intro hm
  rcases mem_squeezeGo false (lstripWs t) '[' hm with h1 | h2
  · cases h1
  · exact h ((List.dropWhile_sublist isPySpace).subset h2)

/-- Effect of processing one `<p>text</p>` child under a `div` whose
attribute list already answers the marker lookup: the generic text path
runs (or skips a lone-space append), and the close appends a paragraph
break.  The stack and the flags return to their previous values. -/
theorem newsChild_run (pattrs : Attrs) (out t : List Char)
    (hT : getAttr pattrs "t" ≠ PyVal.vNone) :
    runFrom ⟨out, [("div", pattrs)], false, false⟩ (childEvents t) =
      ⟨appendOut (appendOut out (squeezeWs (lstripWs t))) ['\n', '\n'],
        [("div", pattrs)], false, false⟩ ∨
    runFrom ⟨out, [("div", pattrs)], false, false⟩ (childEvents t) =
      ⟨appendOut out ['\n', '\n'], [("div", pattrs)], false, false⟩ := by
  have h1 : step ⟨out, [("div", pattrs)], false, false⟩
      (Event.start "p" []) =
      ⟨out, [("p", []), ("div", pattrs)], false, false⟩ := by
    simp [step, handleStarttag]
  have hch : childEvents t =
      [Event.start "p" [], Event.text t, Event.close "p"] := rfl
  by_cases hc : squeezeWs (lstripWs t) ≠ [' '] ∨
      (out ≠ [] ∧ out.getLast? ≠ some '\n')
  · left
    have h2 : step ⟨out, [("p", []), ("div", pattrs)], false, false⟩
        (Event.text t) =
        ⟨appendOut out (squeezeWs (lstripWs t)),
          [("p", []), ("div", pattrs)], false, false⟩ := by
      simp [step, handleData, hT, hc]
    have h3 : step ⟨appendOut out (squeezeWs (lstripWs t)),
        [("p", []), ("div", pattrs)], false, false⟩ (Event.close "p") =
        ⟨appendOut (appendOut out (squeezeWs (lstripWs t))) ['\n', '\n'],
          [("div", pattrs)], false, false⟩ := by
      simp [step, handleEndtag, topAttrs, stackAttrs]
    rw [hch, runFrom_cons, h1, runFrom_cons, h2, runFrom_cons, h3]
    rfl
  · right
    have h2 : step ⟨out, [("p", []), ("div", pattrs)], false, false⟩
        (Event.text t) =
        ⟨out, [("p", []), ("div", pattrs)], false, false⟩ := by
      simp [step, handleData, hT, hc]
    have h3 : step ⟨out, [("p", []), ("div", pattrs)], false, false⟩
        (Event.close "p") =
        ⟨appendOut out ['\n', '\n'], [("div", pattrs)], false, false⟩ := by
      simp [step, handleEndtag, topAttrs, stackAttrs]
    rw [hch, runFrom_cons, h1, runFrom_cons, h2, runFrom_cons, h3]
    rfl

/-- Processing any number of `<p>` children while the marker lookup already
answers preserves the `'['` count of the buffer and every occurrence of a
block ending in a non-whitespace character. -/
theorem newsChildren_run (pattrs : Attrs)
    (hT : getAttr pattrs "t" ≠ PyVal.vNone) (k : Nat) :
    ∀ (ts : List (List Char)) (out : List Char),
      (∀ t ∈ ts, '[' ∉ t) → out.count '[' = k →
      ∃ out2,
        runFrom ⟨out, [("div", pattrs)], false, false⟩
            (childrenEvents ts) =
          ⟨out2, [("div", pattrs)], false, false⟩ ∧
        out2.count '[' = k ∧
        ∀ p : List Char, p ≠ [] →
          (∀ c, p.getLast? = some c → isPySpace c = false) →
          containsSeq p out = true → containsSeq p out2 = true := by
  intro ts
  induction ts with
  | nil =>
    intro out _ hk
    exact ⟨out, rfl, hk, fun p _ _ hs => hs⟩
  | cons t ts ih =>
    intro out hbr hk
    have hbrt : '[' ∉ t := hbr t (List.mem_cons_self _ _)
    have hbr' : ∀ u ∈ ts, '[' ∉ u :=
      fun u hu => hbr u (List.mem_cons_of_mem _ hu)
    have hnsp : isPySpace '[' = false := by decide
    have hnl2 : List.count '[' ['\n', '\n'] = 0 := by decide
    have hrun := newsChild_run pattrs out t hT
    have hevents : childrenEvents (t :: ts) =
        childEvents t ++ childrenEvents ts := rfl
    rcases hrun with hcase | hcase
    · have hk2 : (appendOut (appendOut out (squeezeWs (lstripWs t)))
          ['\n', '\n']).count '[' = k := by
        rw [count_appendOut hnsp, count_appendOut hnsp,
          count_squeeze_lstrip hbrt, hnl2, hk]
        omega
      rcases ih _ hbr' hk2 with ⟨out2, hrun2, hk3, hseq⟩
      refine ⟨out2, ?_, hk3, ?_⟩
      · rw [hevents, runFrom_append, hcase, hrun2]
      · intro p hp hlast hs
        exact hseq p hp hlast
          (containsSeq_appendOut hp hlast _
            (containsSeq_appendOut hp hlast _ hs))
    · have hk2 : (appendOut out ['\n', '\n']).count '[' = k := by
        rw [count_appendOut hnsp, hnl2, hk]
        omega
      rcases ih _ hbr' hk2 with ⟨out2, hrun2, hk3, hseq⟩
      refine ⟨out2, ?_, hk3, ?_⟩
      · rw [hevents, runFrom_append, hcase, hrun2]
      · intro p hp hlast hs
        exact hseq p hp hlast (containsSeq_appendOut hp hlast _ hs)

theorem appendOut_nil_of_ne {txt : List Char} (h : txt ≠ []) :
    appendOut [] txt = ' ' :: txt := by
  cases txt with
  | nil => exact absurd rfl h
  | cons t0 ts => rfl

theorem newsFirstChild_facts (attrs : Attrs) (t1 : List Char)
    (hkeys : ∀ kv ∈ attrs, Prod.fst kv ≠ "t")
    (hcls : getAttr attrs "class" = PyVal.vStr "news")
    (hne : t1 ≠ [])
    (hhead : ∀ c, t1.head? = some c → isPySpace c = false) :
    runFrom ⟨[], [("div", attrs)], false, false⟩ (childEvents t1) =
      ⟨appendOut (' ' :: ("\n[News] ".data ++ t1)) ['\n', '\n'],
        [("div", attrs ++ [("t", PyVal.vTrue)])], false, false⟩ := by
  have hTnone : getAttr attrs "t" = PyVal.vNone := getAttr_of_no_key hkeys
  have hstrip : lstripWs t1 = t1 := by
    cases t1 with
    | nil => rfl
    | cons c cs =>
      have hc := hhead c rfl
      simp [lstripWs, hc]
  have hnbne : ("\n[News] ".data ++ t1) ≠ [] := by
    intro hcon
    rcases List.append_eq_nil.mp hcon with ⟨h1, _⟩
    rw [show ("\n[News] ".data : List Char) =
      '\n' :: "[News] ".data from rfl] at h1
    cases h1
  have h2 : step ⟨[], [("div", attrs)], false, false⟩
      (Event.start "p" []) =
      ⟨[], [("p", []), ("div", attrs)], false, false⟩ := by
    simp [step, handleStarttag]
  have h3 : step ⟨[], [("p", []), ("div", attrs)], false, false⟩
      (Event.text t1) =
      ⟨' ' :: ("\n[News] ".data ++ t1),
        [("p", []), ("div", attrs ++ [("t", PyVal.vTrue)])],
        false, false⟩ := by
    simp only [step, handleData]
    simp [hTnone, hcls, hstrip, setMarker]
    rfl
  have h4 : step ⟨' ' :: ("\n[News] ".data ++ t1),
      [("p", []), ("div", attrs ++ [("t", PyVal.vTrue)])],
      false, false⟩ (Event.close "p") =
      ⟨appendOut (' ' :: ("\n[News] ".data ++ t1)) ['\n', '\n'],
        [("div", attrs ++ [("t", PyVal.vTrue)])], false, false⟩ := by
    simp [step, handleEndtag, topAttrs, stackAttrs]
  have hch : childEvents t1 =
      [Event.start "p" [], Event.text t1, Event.close "p"] := rfl
  rw [hch, runFrom_cons, h2, runFrom_cons, h3, runFrom_cons, h4]
  rfl

/-- Claim C3 (amended): a `div` element whose attribute list carries no
attribute named `t`, with class `news` and two or more `p` children, emits
the `[News] ` prefix exactly once — the whole output holds exactly one `'['`
character — and the prefix sits on the first child's text; processing the
first child appends the marker `('t', True)` to the parent's attribute
mapping, so later `p` children take the generic path with no prefix. -/
theorem news_marker_once (attrs : Attrs) (t1 : List Char)
    (ts : List (List Char))
    (hkeys : ∀ kv ∈ attrs, Prod.fst kv ≠ "t")
    (hcls : getAttr attrs "class" = PyVal.vStr "news")
    (hbr1 : '[' ∉ t1) (hbrs : ∀ t ∈ ts, '[' ∉ t)
    (hne : t1 ≠ [])
    (hhead : ∀ c, t1.head? = some c → isPySpace c = false)
    (hlast : ∀ c, t1.getLast? = some c → isPySpace c = false) :
    (run (docNews attrs (t1 :: ts))).out.count '[' = 1 ∧
    containsSeq ("\n[News] ".data ++ t1)
      (run (docNews attrs (t1 :: ts))).out = true := by
  have hT' : getAttr (attrs ++ [("t", PyVal.vTrue)]) "t" = PyVal.vTrue :=
    getAttr_marker hkeys
  have hTne : getAttr (attrs ++ [("t", PyVal.vTrue)]) "t" ≠ PyVal.vNone := by
    rw [hT']; simp
  have hclsP : getAttr (attrs ++ [("t", PyVal.vTrue)]) "class" =
      PyVal.vStr "news" := by
    rw [getAttr_append_of_ne, hcls]
    rw [hcls]; simp
  have hpne : ("\n[News] ".data ++ t1) ≠ [] := by
    intro hcon
    rcases List.append_eq_nil.mp hcon with ⟨h1, _⟩
    rw [show ("\n[News] ".data : List Char) =
      '\n' :: "[News] ".data from rfl] at h1
    cases h1
  have hlastp : ∀ c, ("\n[News] ".data ++ t1).getLast? = some c →
      isPySpace c = false := by
    intro c hc
    rw [getLast?_append_of_ne_nil hne] at hc
    exact hlast c hc
  have hdoc : docNews attrs (t1 :: ts) =
      Event.start "div" attrs ::
        (childEvents t1 ++ (childrenEvents ts ++ [Event.close "div"])) := by
    simp [docNews, childrenEvents]
  have h1 : step initState (Event.start "div" attrs) =
      ⟨[], [("div", attrs)], false, false⟩ := by
    simp [step, handleStarttag, initState, hcls, suppressCls]
  have hnb1 : List.count '[' "\n[News] ".data = 1 := by decide
  have hcount3 : List.count '[' (' ' :: ("\n[News] ".data ++ t1)) = 1 := by
    simp [List.count_cons, List.count_append, hnb1,
      List.count_eq_zero.mpr hbr1]
  have hseq3 : containsSeq ("\n[News] ".data ++ t1)
      (' ' :: ("\n[News] ".data ++ t1)) = true :=
    (containsSeq_split _ _).mpr ⟨[' '], [], by simp⟩
  have hcount4 : List.count '['
      (appendOut (' ' :: ("\n[News] ".data ++ t1)) ['\n', '\n']) = 1 := by
    rw [count_appendOut (by decide), hcount3]
    decide
  have hseq4 : containsSeq ("\n[News] ".data ++ t1)
      (appendOut (' ' :: ("\n[News] ".data ++ t1)) ['\n', '\n']) = true :=
    containsSeq_appendOut hpne hlastp _ hseq3
  obtain ⟨out5, hrun5, hk5, hseq5⟩ :=
    newsChildren_run _ hTne 1 ts
      (appendOut (' ' :: ("\n[News] ".data ++ t1)) ['\n', '\n']) hbrs hcount4
  have h6 : step ⟨out5, [("div", attrs ++ [("t", PyVal.vTrue)])],
      false, false⟩ (Event.close "div") =
      ⟨appendOut out5 ['\n', '\n'], [], false, false⟩ := by
    simp [step, handleEndtag, topAttrs, stackAttrs, hclsP, suppressCls]
  have hfinal : run (docNews attrs (t1 :: ts)) =
      ⟨appendOut out5 ['\n', '\n'], [], false, false⟩ := by
    rw [run, hdoc, runFrom_cons, h1, runFrom_append,
      newsFirstChild_facts attrs t1 hkeys hcls hne hhead,
      runFrom_append, hrun5, runFrom_cons, h6]
    rfl
  rw [hfinal]
  constructor
  · show List.count '[' (appendOut out5 ['\n', '\n']) = 1
    rw [count_appendOut (by decide), hk5]
    decide
  · show containsSeq ("\n[News] ".data ++ t1)
      (appendOut out5 ['\n', '\n']) = true
    exact containsSeq_appendOut hpne hlastp _
      (hseq5 _ hpne hlastp hseq4)

/-- Claim C10 (amended): when the `div`'s attribute list answers the marker
lookup with anything other than `None` — a string value or the boolean
marker — the news branch never fires for its `p` children, so no `[News] `
prefix (indeed no `'['` at all) is ever emitted. -/
theorem news_blocked (attrs : Attrs) (ts : List (List Char))
    (hT : getAttr attrs "t" ≠ PyVal.vNone)
    (hcls : getAttr attrs "class" = PyVal.vStr "news")
    (hbrs : ∀ t ∈ ts, '[' ∉ t) :
    (run (docNews attrs ts)).out.count '[' = 0 := by
  have h1 : step initState (Event.start "div" attrs) =
      ⟨[], [("div", attrs)], false, false⟩ := by
    simp [step, handleStarttag, initState, hcls, suppressCls]
  obtain ⟨out2, hrun2, hk2, _⟩ :=
    newsChildren_run attrs hT 0 ts [] hbrs (by simp)
  have h6 : step ⟨out2, [("div", attrs)], false, false⟩
      (Event.close "div") =
      ⟨appendOut out2 ['\n', '\n'], [], false, false⟩ := by
    simp [step, handleEndtag, topAttrs, stackAttrs, hcls, suppressCls]
  have hdoc : docNews attrs ts =
      Event.start "div" attrs ::
        (childrenEvents ts ++ [Event.close "div"]) := rfl
  have hfinal : run (docNews attrs ts) =
      ⟨appendOut out2 ['\n', '\n'], [], false, false⟩ := by
    rw [run, hdoc, runFrom_cons, h1, runFrom_append, hrun2,
      runFrom_cons, h6]
    rfl
  rw [hfinal]
  show List.count '[' (appendOut out2 ['\n', '\n']) = 0
  rw [count_appendOut (by decide), hk2]
  decide

/-- Tag name of the innermost open element, `''` for an empty stack,
matching the locals of `handle_data`. -/
def topTag (s : ParserState) : String :=
  match s.stack with
  | [] => ""
  | (t, _) :: _ => t

/-- Claim C8 (amended): for a text node handled in pre-formatted mode or
with current element `code` (and outside the suppressed, first-heading and
structural-extraction cases), the handler first strips the text's leading
whitespace, then appends it raw — no whitespace squeezing — with every
line of the stripped text prefixed by exactly one tab and the internal
newlines kept. -/
theorem pre_code_tab_indent (s : ParserState) (d : List Char)
    (hig : s.ignore = false)
    (hmode : s.insidePre = true ∨ topTag s = "code")
    (h0 : topTag s ≠ "h0") (hp : topTag s ≠ "p") (ha : topTag s ≠ "a") :
    (handleData s d).out = s.out ++ tabIndent (lstripWs d) := by
  cases hst : s.stack with
  | nil =>
    have hpre : s.insidePre = true := by
      rcases hmode with h | h
      · exact h
      · simp [topTag, hst] at h
    simp [handleData, hst, hig, hpre]
  | cons e rest =>
    obtain ⟨t, a⟩ := e
    have htag : topTag s = t := by simp [topTag, hst]
    rw [htag] at h0 hp ha
    rcases hmode with hpre | hcode
    · simp [handleData, hst, hig, hpre, h0, hp, ha]
    · rw [htag] at hcode
      subst hcode
      simp [handleData, hst, hig, h0, hp, ha]

/-- Claim C9: whenever the whitespace-aware append receives nonempty text
and the buffer's last character is not whitespace — including the empty
buffer — it inserts a single space before the text; in particular output
whose first content arrives through this path starts with a space. -/
theorem append_space_rule (out txt : List Char) (hne : txt ≠ [])
    (hl : out = [] ∨ ∀ c, out.getLast? = some c → isPySpace c = false) :
    appendOut out txt = out ++ ' ' :: txt ∧
    (out = [] → (appendOut out txt).head? = some ' ') := by
  have hmain : appendOut out txt = out ++ ' ' :: txt := by
    cases txt with
    | nil => exact absurd rfl hne
    | cons t0 ts =>
      cases hg : out.getLast? with
      | none => simp [appendOut, hg]
      | some lc =>
        have hws : isPySpace lc = false := by
          rcases hl with h | h
          · rw [h] at hg; cases hg
          · exact h lc hg
        simp [appendOut, hg, hws]
  refine ⟨hmain, fun h => ?_⟩
  rw [hmain, h]
  rfl

/-- Claim C5: a run of paragraph/div close events never leaves more than
two consecutive newline characters in a buffer that had none, and when
buffer and text meet newline-to-newline the append trims the trailing
whitespace, writes exactly two newlines, and drops the text's leading
newlines. -/
theorem blank_line_cap :
    (∀ (s : ParserState) (tags : List String),
        (∀ t ∈ tags, t = "p" ∨ t = "div") →
        containsSeq nlTriple s.out = false →
        containsSeq nlTriple
          (runFrom s (tags.map Event.close)).out = false) ∧
    (∀ out text : List Char, out.getLast? = some '\n' →
        text.head? = some '\n' →
        appendOut out text =
          rstripWs out ++ '\n' :: '\n' :: lstripNl text) := by
  constructor
  · exact fun s tags h1 h2 => runFrom_closes_noTriple tags s h1 h2
  · intro out text h1 h2
    cases text with
    | nil => cases h2
    | cons t0 ts =>
      have ht0 : t0 = '\n' := by
        rw [show (t0 :: ts).head? = some t0 from rfl] at h2
        injection h2
      subst ht0
      simp [appendOut, h1, isPySpace]

/-- Claim C1 (amended): while suppression is active, every start-tag and
text event, and every close event that does not meet the reset condition,
leaves the output buffer untouched and suppression on; the first close
event that does meet the reset condition — closing name `div` with a
popped entry of class `right`/`sidebar`, even a nested one inside the
suppressed subtree — switches suppression off, after which content is
emitted again. -/
theorem suppression_until_reset :
    (∀ (es : List Event) (s : ParserState), s.ignore = true →
        noResetPops s.stack es = true →
        (runFrom s es).out = s.out ∧ (runFrom s es).ignore = true) ∧
    (∀ (s : ParserState) (tag : String), s.ignore = true →
        resetPop s.stack tag → (handleEndtag s tag).ignore = false) := by
  constructor
  · exact runFrom_ignored
  · intro s tag _ hr
    rw [handleEndtag_ignore, if_pos hr]

/-- Claim C2 (amended): the close handler resets the suppression flag
exactly when the closing tag's NAME is `div` and the popped stack entry's
class is `right` or `sidebar`; a closing tag with a different name leaves
suppression untouched even when the popped entry is a suppress-matching
`div`. -/
theorem endtag_reset_rule (s : ParserState) (tag : String) :
    (handleEndtag s tag).ignore =
      if resetPop s.stack tag then false else s.ignore :=
  handleEndtag_ignore s tag

/-- Tokenizer events of `<p>a</p></div><p>b</p>` (the `</div>` has no
matching open tag). -/
def unmatchedDoc : List Event :=
  [Event.start "p" [], Event.text "a".data, Event.close "p",
    Event.close "div",
    Event.start "p" [], Event.text "b".data, Event.close "p"]

/-- Claim C6: popping with an empty context stack is a no-op on the stack
(no underflow, the handler is total) and never changes the suppression
flag; a document with an extra unmatched `</div>` converts normally and
suppression stays off for the following elements. -/
theorem empty_stack_pop :
    (∀ (s : ParserState) (tag : String), s.stack = [] →
        (handleEndtag s tag).stack = [] ∧
        (handleEndtag s tag).ignore = s.ignore) ∧
    ((run unmatchedDoc).out = " a\n\nb \n\n".data ∧
      (run unmatchedDoc).ignore = false) := by
  constructor
  · intro s tag h
    constructor
    · rw [handleEndtag_stack, h]
      rfl
    · rw [handleEndtag_ignore]
      have hnr : ¬resetPop s.stack tag := by
        simp [resetPop, h, stackAttrs, getAttr, suppressCls]
      rw [if_neg hnr]
  · constructor
    · decide
    · decide

/-! ## Concrete documents and counterexamples -/

/-- Tokenizer events of
`<div class="right"><div class="sidebar"></div>LEAK</div>`. -/
def leakDoc : List Event :=
  [Event.start "div" [("class", PyVal.vStr "right")],
    Event.start "div" [("class", PyVal.vStr "sidebar")],
    Event.close "div", Event.text "LEAK".data, Event.close "div"]

/-- Counterexample to claim C1 as stated: the whole document is one
`div.right` subtree, so the claim demands an empty buffer; instead the
nested `div.sidebar`'s close ends suppression early and the text `LEAK`,
nested inside the suppressed subtree, is emitted. -/
theorem suppression_leak_cex :
    (run leakDoc).out = " \n\nLEAK \n\n".data ∧
    containsSeq "LEAK".data (run leakDoc).out = true := by
  decide

/-- Witness for claim C1's amended theorem at a concrete suppressed state
and event list. -/
theorem suppression_until_reset_wit :
    ((runFrom ⟨[], [("div", [("class", PyVal.vStr "right")])], false, true⟩
        [Event.text "x".data, Event.start "p" [], Event.close "p"]).out
      = [] ∧
      (runFrom ⟨[], [("div", [("class", PyVal.vStr "right")])], false,
        true⟩
        [Event.text "x".data, Event.start "p" [],
          Event.close "p"]).ignore = true) ∧
    (handleEndtag ⟨[], [("div", [("class", PyVal.vStr "right")])], false,
      true⟩ "div").ignore = false :=
  ⟨suppression_until_reset.1
      [Event.text "x".data, Event.start "p" [], Event.close "p"]
      ⟨[], [("div", [("class", PyVal.vStr "right")])], false, true⟩
      rfl (by decide),
    suppression_until_reset.2
      ⟨[], [("div", [("class", PyVal.vStr "right")])], false, true⟩
      "div" rfl (by decide)⟩

/-- Counterexample to claim C2 as stated: after `<div class="right">` the
top stack entry is a suppress-matching `div`, yet the close event
`</span>` — which pops exactly that entry — leaves suppression ON,
because the handler checks the closing tag's name. -/
theorem endtag_name_cex :
    (run [Event.start "div" [("class", PyVal.vStr "right")]]).stack =
      [("div", [("class", PyVal.vStr "right")])] ∧
    (run [Event.start "div" [("class", PyVal.vStr "right")]]).ignore
      = true ∧
    (run [Event.start "div" [("class", PyVal.vStr "right")],
      Event.close "span"]).ignore = true := by
  decide

/-- Tokenizer events of
`<div class="news"><p>Kernel update</p><p>released today</p></div>`. -/
def newsDoc : List Event :=
  docNews [("class", PyVal.vStr "news")]
    ["Kernel update".data, "released today".data]

/-- Counterexample to claim C4 as stated: the full output is computed, and
no line of it equals `[News]  Kernel update` (with two spaces). -/
theorem news_line_cex :
    (run newsDoc).out =
      " \n[News] Kernel update \n\nreleased today\n\n".data ∧
    List.count "[News]  Kernel update".data (splitNl (run newsDoc).out)
      = 0 := by
  decide

/-- Claim C4 (amended): the converter's output for the two-paragraph news
document has exactly one line equal to `[News] Kernel update ` — a single
space after the marker and a trailing space — and exactly one line
containing the `[News]` marker. -/
theorem news_line_actual :
    List.count "[News] Kernel update ".data (splitNl (run newsDoc).out)
      = 1 ∧
    ((splitNl (run newsDoc).out).filter
      (fun l => containsSeq "[News]".data l)).length = 1 := by
  decide

/-- Witness for claim C3's amended theorem at the concrete two-paragraph
news document. -/
theorem news_marker_once_wit :
    (run (docNews [("class", PyVal.vStr "news")]
      ["Kernel update".data, "released today".data])).out.count '[' = 1 ∧
    containsSeq ("\n[News] ".data ++ "Kernel update".data)
      (run (docNews [("class", PyVal.vStr "news")]
        ["Kernel update".data, "released today".data])).out = true :=
  news_marker_once [("class", PyVal.vStr "news")] "Kernel update".data
    ["released today".data] (by decide) (by decide) (by decide)
    (by decide) (by decide)
    (fun c hc => by
      have h2 : ("Kernel update".data).head? = some 'K' := by decide
      rw [h2] at hc
      injection hc with h3
      rw [← h3]
      decide)
    (fun c hc => by
      have h2 : ("Kernel update".data).getLast? = some 'e' := by decide
      rw [h2] at hc
      injection hc with h3
      rw [← h3]
      decide)

/-- Tokenizer events of `<div class="news" t="x"><p>A</p><p>B</p></div>`:
a `div.news` carrying a pre-existing `t` attribute with a string value. -/
def newsBlockedTDoc : List Event :=
  docNews [("class", PyVal.vStr "news"), ("t", PyVal.vStr "x")]
    ["A".data, "B".data]

/-- Counterexample to claim C3 as stated: this `div` has class `news` and
two `p` children with text, yet the `[News] ` prefix is emitted zero
times, because the attribute list already answers the marker lookup. -/
theorem news_marker_missing_cex :
    containsSeq "[News]".data (run newsBlockedTDoc).out = false ∧
    (run newsBlockedTDoc).out.count '[' = 0 := by
  decide

/-- Tokenizer events of `<div class="news" t><p>A</p></div>`: the
pre-existing `t` attribute is valueless, so the tokenizer reports its
value as `None`. -/
def newsValuelessTDoc : List Event :=
  docNews [("class", PyVal.vStr "news"), ("t", PyVal.vNone)] ["A".data]

/-- Counterexample to claim C10 as stated: a pre-existing `t` attribute
whose value is `None` does NOT block the prefix — the marker lookup
returns `None` for it, so the news branch fires and `[News]` is
emitted. -/
theorem news_t_none_cex :
    containsSeq "[News]".data (run newsValuelessTDoc).out = true ∧
    (run newsValuelessTDoc).out = " \n[News] A\n\n".data := by
  decide

/-- Witness for claim C10's amended theorem at a concrete document with a
string-valued `t` attribute. -/
theorem news_blocked_wit :
    (run (docNews [("class", PyVal.vStr "news"), ("t", PyVal.vStr "x")]
      ["A".data])).out.count '[' = 0 :=
  news_blocked [("class", PyVal.vStr "news"), ("t", PyVal.vStr "x")]
    ["A".data] (by decide) (by decide) (by decide)

/-- Tokenizer events of `<div class="timestamp"><a>2019-05-01</a></div>`. -/
def dateDoc : List Event :=
  [Event.start "div" [("class", PyVal.vStr "timestamp")],
    Event.start "a" [], Event.text "2019-05-01".data, Event.close "a",
    Event.close "div"]

/-- Counterexample to claim C7 as stated: after date post-processing the
output nowhere contains the date wrapped tightly as
`<green>2019-05-01<reset>` — the capture includes the two spaces emitted
around the anchor close, so they sit between the date and the reset
escape. -/
theorem date_exact_form_cex :
    containsSeq (greenEsc ++ ("2019-05-01".data ++ resetEsc))
      (fixDates (run dateDoc).out) = false := by
  decide

/-- Claim C7 (amended): before post-processing the output contains
`[Date] 2019-05-01`; after `fix_dates` the whole output equals
` [<green>2019-05-01  <reset>]` followed by the paragraph break — the
wrapped content keeps the two spaces the anchor close emitted. -/
theorem date_marker_actual :
    containsSeq "[Date] 2019-05-01".data (run dateDoc).out = true ∧
    fixDates (run dateDoc).out =
      " [".data ++ (greenEsc ++ ("2019-05-01  ".data ++
        (resetEsc ++ "]\n\n".data))) := by
  decide

/-- Tokenizer events of `<pre> A</pre>`. -/
def preDoc : List Event :=
  [Event.start "pre" [], Event.text " A".data, Event.close "pre"]

/-- Counterexample to claim C8 as stated: inside `pre` the text ` A` is
appended as `\tA`, not `\t A` — the handler strips the text's leading
whitespace before indenting, so the first line is not merely
tab-prefixed. -/
theorem pre_lstrip_cex :
    (run preDoc).out = "\tA \n".data ∧
    (run preDoc).out ≠ "\t A \n".data := by
  decide

/-- Witness for claim C8's amended theorem at a concrete pre-mode state. -/
theorem pre_code_tab_indent_wit :
    (handleData ⟨[], [("pre", [])], true, false⟩ " A\nB".data).out =
      ([] : List Char) ++ tabIndent (lstripWs " A\nB".data) :=
  pre_code_tab_indent ⟨[], [("pre", [])], true, false⟩ " A\nB".data
    rfl (Or.inl rfl) (by decide) (by decide) (by decide)

/-- Witness for claim C9's theorem at the empty buffer. -/
theorem append_space_rule_wit :
    appendOut [] "cd".data = ([] : List Char) ++ ' ' :: "cd".data ∧
    (([] : List Char) = [] →
      (appendOut [] "cd".data).head? = some ' ') :=
  append_space_rule [] "cd".data (by decide) (Or.inl rfl)

/-- Witness for claim C5's theorem on a concrete buffer and close run. -/
theorem blank_line_cap_wit :
    containsSeq nlTriple
      (runFrom ⟨"x".data, [], false, false⟩
        (["p", "div", "div", "p"].map Event.close)).out = false ∧
    appendOut ['\n'] ['\n', '\n'] =
      rstripWs ['\n'] ++ '\n' :: '\n' :: lstripNl ['\n', '\n'] :=
  ⟨blank_line_cap.1 ⟨"x".data, [], false, false⟩ ["p", "div", "div", "p"]
      (by decide) (by decide),
    blank_line_cap.2 ['\n'] ['\n', '\n'] (by decide) (by decide)⟩

/-- Witness for claim C6's theorem: pop on the fresh (empty-stack) state. -/
theorem empty_stack_pop_wit :
    (handleEndtag initState "div").stack = [] ∧
    (handleEndtag initState "div").ignore = initState.ignore :=
  empty_stack_pop.1 initState "div" rfl
